import Mathlib

/-!
Verification development for a centralized federated-learning simulation
(`main.py`): weight averaging (`average_weights`), deterministic dataset
partitioning (`dataset_to_nodes_partitioning`), evaluation (`evaluate`) and
the orchestrating round loop.

Tensors are modelled as lists of rationals, state dicts as association
lists with distinct keys (Python dicts), and numpy's globally seeded PRNG
as an explicitly threaded deterministic generator state.  Fallible Python
code (index errors, `ValueError` from numpy) is modelled with `Option`.
-/

namespace FLNonIID

/-- A (flattened) parameter tensor. -/
abbrev Tensor := List ℚ

/-- A model `state_dict`: an insertion-ordered mapping from parameter name
to tensor, modelled as an association list (Python dicts have distinct keys). -/
abbrev StateDict := List (String × Tensor)

/-- The keys of a state dict, in insertion order (`w_avg.keys()`). -/
def dictKeys (d : StateDict) : List String := d.map Prod.fst

/-- Dict lookup `d[k]`.  In the source every lookup is on a present key, so
the default `[]` is never observable under the stated hypotheses. -/
def dictGet (d : StateDict) (k : String) : Tensor :=
  ((d.find? (fun e => e.1 == k)).map Prod.snd).getD []

/-- Dict assignment `d[k] = v` for an already-present key `k` (the only kind
the source performs): the entry keeps its position. -/
def dictSet (d : StateDict) (k : String) (v : Tensor) : StateDict :=
  d.map (fun e => if e.1 == k then (k, v) else e)

/-- Elementwise tensor addition (`+=` on same-shape tensors). -/
def tensorAdd (a b : Tensor) : Tensor := List.zipWith (· + ·) a b

/-- `torch.div(a, n)`: elementwise division by a scalar count. -/
def tensorDivN (a : Tensor) (n : ℕ) : Tensor := a.map (fun q => q / (n : ℚ))

/-- `average_weights(models)` from `main.py`: deep-copy `models[0]`, then for
every key accumulate `models[i][key]` for `i = 1 .. len-1` and divide by
`len(models)`.  `models[0]` on an empty list raises `IndexError`, hence
`Option`. -/
def average_weights (models : List StateDict) : Option StateDict :=
  match models with
  | [] => none
  | w0 :: _ =>
    some ((dictKeys w0).foldl (fun w key =>
      dictSet w key (tensorDivN
        ((List.range' 1 (models.length - 1)).foldl
          (fun a i => tensorAdd a (dictGet (models.getD i []) key)) (dictGet w key))
        models.length)) w0)

/-- The specification's aggregation operator, stated in its own words: the
elementwise arithmetic mean of parameter `k` across all elements of the list,
preserving the shape of the first element's tensor. -/
def meanTensor (models : List StateDict) (k : String) : Tensor :=
  (List.range (dictGet (models.headD []) k).length).map
    (fun j => (models.map (fun m => (dictGet m k).getD j 0)).sum / (models.length : ℚ))

section DictLemmas

theorem dictGet_cons (e : String × Tensor) (t : StateDict) (k : String) :
    dictGet (e :: t) k = if e.1 = k then e.2 else dictGet t k := by
  unfold dictGet
  by_cases h : e.1 = k
  · rw [List.find?_cons_of_pos _ (by simp [h]), if_pos h]
    rfl
  · rw [List.find?_cons_of_neg _ (by simp [h]), if_neg h]

theorem dictSet_cons (e : String × Tensor) (t : StateDict) (k : String) (v : Tensor) :
    dictSet (e :: t) k v = (if e.1 = k then (k, v) else e) :: dictSet t k v := by
  unfold dictSet
  by_cases h : e.1 = k <;> simp [h]

theorem dictKeys_dictSet (d : StateDict) (k : String) (v : Tensor) :
    dictKeys (dictSet d k v) = dictKeys d := by
  unfold dictKeys dictSet
  rw [List.map_map]
  apply List.map_congr_left
  intro e _
  by_cases h : e.1 = k <;> simp [h]

theorem dictGet_dictSet_ne (d : StateDict) (k k' : String) (v : Tensor)
    (h : k' ≠ k) : dictGet (dictSet d k v) k' = dictGet d k' := by
  induction d with
  | nil => rfl
  | cons e t ih =>
    rw [dictSet_cons, dictGet_cons, dictGet_cons]
    by_cases he : e.1 = k
    · rw [if_pos he]
      rw [if_neg (by simpa using Ne.symm h), if_neg (he ▸ Ne.symm h)]
      exact ih
    · rw [if_neg he]
      by_cases he' : e.1 = k'
      · rw [if_pos he', if_pos he']
      · rw [if_neg he', if_neg he']
        exact ih

theorem dictGet_dictSet_self (d : StateDict) (k : String) (v : Tensor)
    (h : k ∈ dictKeys d) : dictGet (dictSet d k v) k = v := by
  induction d with
  | nil => simp [dictKeys] at h
  | cons e t ih =>
    rw [dictSet_cons, dictGet_cons]
    by_cases he : e.1 = k
    · rw [if_pos he]
      simp
    · rw [if_neg he]
      simp only [if_neg he]
      simp only [dictKeys, List.map_cons, List.mem_cons] at h
      rcases h with h | h
      · exact absurd h.symm he
      · exact ih h

theorem dictSet_of_not_mem (d : StateDict) (k : String) (v : Tensor)
    (h : k ∉ dictKeys d) : dictSet d k v = d := by
  induction d with
  | nil => rfl
  | cons e t ih =>
    simp only [dictKeys, List.map_cons, List.mem_cons, not_or] at h
    rw [dictSet_cons, if_neg (Ne.symm h.1), ih h.2]

theorem dictSet_get_self (d : StateDict) (k : String)
    (hn : (dictKeys d).Nodup) (h : k ∈ dictKeys d) :
    dictSet d k (dictGet d k) = d := by
  induction d with
  | nil => rfl
  | cons e t ih =>
    simp only [dictKeys, List.map_cons, List.nodup_cons] at hn
    simp only [dictKeys, List.map_cons, List.mem_cons] at h
    rw [dictGet_cons, dictSet_cons]
    by_cases he : e.1 = k
    · rw [if_pos he, if_pos he, dictSet_of_not_mem t k e.2 (he ▸ hn.1), ← he]
    · rcases h with h | h
      · exact absurd h.symm he
      · rw [if_neg he, if_neg he, ih hn.2 h]

end DictLemmas

section FoldLemmas

theorem dictGet_foldl_set_not_mem (F : Tensor → String → Tensor) (ks : List String)
    (w : StateDict) (k : String) (hk : k ∉ ks) :
    dictGet (ks.foldl (fun w key => dictSet w key (F (dictGet w key) key)) w) k
      = dictGet w k := by
  induction ks generalizing w with
  | nil => rfl
  | cons a t ih =>
    simp only [List.mem_cons, not_or] at hk
    rw [List.foldl_cons, ih _ hk.2, dictGet_dictSet_ne _ _ _ _ hk.1]

theorem dictKeys_foldl_set (F : Tensor → String → Tensor) (ks : List String)
    (w : StateDict) :
    dictKeys (ks.foldl (fun w key => dictSet w key (F (dictGet w key) key)) w)
      = dictKeys w := by
  induction ks generalizing w with
  | nil => rfl
  | cons a t ih =>
    rw [List.foldl_cons, ih, dictKeys_dictSet]

theorem dictGet_foldl_set_mem (F : Tensor → String → Tensor) (ks : List String)
    (w : StateDict) (hnd : ks.Nodup) (hsub : ∀ x ∈ ks, x ∈ dictKeys w)
    (k : String) (hk : k ∈ ks) :
    dictGet (ks.foldl (fun w key => dictSet w key (F (dictGet w key) key)) w) k
      = F (dictGet w k) k := by
  induction ks generalizing w with
  | nil => cases hk
  | cons a t ih =>
    rw [List.foldl_cons]
    rcases List.mem_cons.mp hk with rfl | hkt
    · have hat : k ∉ t := (List.nodup_cons.mp hnd).1
      rw [dictGet_foldl_set_not_mem F t _ k hat,
        dictGet_dictSet_self _ _ _ (hsub k (by simp))]
    · have hka : k ≠ a := fun h => (List.nodup_cons.mp hnd).1 (h ▸ hkt)
      rw [ih _ (List.nodup_cons.mp hnd).2
        (fun x hx => by rw [dictKeys_dictSet]; exact hsub x (List.mem_cons_of_mem _ hx)) hkt,
        dictGet_dictSet_ne _ _ _ _ hka]

theorem foldl_dictSet_get (w : StateDict) (ks : List String)
    (hn : (dictKeys w).Nodup) (hsub : ∀ x ∈ ks, x ∈ dictKeys w) :
    ks.foldl (fun w key => dictSet w key (dictGet w key)) w = w := by
  induction ks with
  | nil => rfl
  | cons a t ih =>
    rw [List.foldl_cons, dictSet_get_self w a hn (hsub a (by simp))]
    exact ih (fun x hx => hsub x (List.mem_cons_of_mem _ hx))

end FoldLemmas

section TensorLemmas

theorem tensorAdd_length (a b : Tensor) (h : b.length = a.length) :
    (tensorAdd a b).length = a.length := by
  simp [tensorAdd, h]

theorem tensorAdd_getD (a b : Tensor) (h : b.length = a.length) (j : ℕ) :
    (tensorAdd a b).getD j 0 = a.getD j 0 + b.getD j 0 := by
  induction a generalizing b j with
  | nil =>
    have : b = [] := List.length_eq_zero.mp h
    subst this
    simp [tensorAdd]
  | cons x t ih =>
    cases b with
    | nil => simp at h
    | cons y u =>
      cases j with
      | zero => simp [tensorAdd]
      | succ j =>
        simp only [tensorAdd, List.zipWith_cons_cons, List.getD_cons_succ]
        exact ih u (by simpa using h) j

theorem foldl_tensorAdd_spec (ts : List Tensor) (t : Tensor)
    (h : ∀ u ∈ ts, u.length = t.length) :
    (ts.foldl tensorAdd t).length = t.length ∧
    ∀ j, (ts.foldl tensorAdd t).getD j 0
          = t.getD j 0 + (ts.map (fun u => u.getD j 0)).sum := by
  induction ts generalizing t with
  | nil => simp
  | cons u us ih =>
    have hu : u.length = t.length := h u (by simp)
    have hrec := ih (tensorAdd t u)
      (fun v hv => by
        rw [tensorAdd_length t u hu]
        exact h v (List.mem_cons_of_mem _ hv))
    constructor
    · rw [List.foldl_cons, hrec.1, tensorAdd_length t u hu]
    · intro j
      rw [List.foldl_cons, hrec.2 j, tensorAdd_getD t u hu j, List.map_cons,
        List.sum_cons, add_assoc]

theorem tensorDivN_one (a : Tensor) : tensorDivN a 1 = a := by
  simp [tensorDivN]

theorem tensorDivN_length (a : Tensor) (n : ℕ) : (tensorDivN a n).length = a.length := by
  simp [tensorDivN]

theorem map_getD_range (l : List ℚ) (d : ℚ) :
    (List.range l.length).map (fun i => l.getD i d) = l := by
  induction l with
  | nil => rfl
  | cons x t ih =>
    have htail : ((List.range t.length).map Nat.succ).map (fun i => (x :: t).getD i d)
        = (List.range t.length).map (fun i => t.getD i d) := by
      rw [List.map_map]
      apply List.map_congr_left
      intro i _
      rfl
    rw [List.length_cons, List.range_succ_eq_map, List.map_cons, htail, ih]
    rfl

theorem map_getD_range_dict (l : List StateDict) (x : StateDict) :
    (List.range' 1 l.length).map (fun i => (x :: l).getD i []) = l := by
  induction l generalizing x with
  | nil => rfl
  | cons y t ih =>
    rw [List.length_cons, List.range'_succ, List.map_cons]
    have htail : (List.range' 2 t.length).map (fun i => (x :: y :: t).getD i [])
        = (List.range' 1 t.length).map (fun i => (y :: t).getD i []) := by
      rw [List.range'_eq_map_range, List.range'_eq_map_range, List.map_map, List.map_map]
      apply List.map_congr_left
      intro i _
      simp only [Function.comp_apply]
      rw [show 2 + i = (1 + i) + 1 by omega]
      rfl
    rw [htail, ih y]
    rfl

end TensorLemmas

/-- **C1**: for every non-empty list of parameter mappings whose elements all
share the parameter-name set (and per-name shapes) of the first element,
`average_weights` returns a mapping that, at every parameter name of the first
element, equals the elementwise arithmetic mean of that parameter across all
list elements; in particular, for a single-element list `[P]` the result
equals `P`. -/
theorem C1_average_weights_is_elementwise_mean (m0 : StateDict) (rest : List StateDict)
    (hn0 : (dictKeys m0).Nodup)
    (hkeys : ∀ m ∈ m0 :: rest, ∀ k, k ∈ dictKeys m ↔ k ∈ dictKeys m0)
    (hshape : ∀ m ∈ m0 :: rest, ∀ k, (dictGet m k).length = (dictGet m0 k).length) :
    ∃ w, average_weights (m0 :: rest) = some w ∧
      (∀ k ∈ dictKeys m0, dictGet w k = meanTensor (m0 :: rest) k) ∧
      (rest = [] → w = m0) := by
  refine ⟨_, rfl, ?_, ?_⟩
  · intro k hk
    have hmem := dictGet_foldl_set_mem
      (fun cur key => tensorDivN
        ((List.range' 1 ((m0 :: rest).length - 1)).foldl
          (fun a i => tensorAdd a (dictGet ((m0 :: rest).getD i []) key)) cur)
        (m0 :: rest).length)
      (dictKeys m0) m0 hn0 (fun x hx => hx) k hk
    refine hmem.trans ?_
    show tensorDivN
        ((List.range' 1 ((m0 :: rest).length - 1)).foldl
          (fun a i => tensorAdd a (dictGet ((m0 :: rest).getD i []) k)) (dictGet m0 k))
        (m0 :: rest).length = meanTensor (m0 :: rest) k
    have hlen1 : (m0 :: rest).length - 1 = rest.length := by simp
    rw [hlen1]
    have hfold : (List.range' 1 rest.length).foldl
        (fun a i => tensorAdd a (dictGet ((m0 :: rest).getD i []) k)) (dictGet m0 k)
        = (rest.map (fun m => dictGet m k)).foldl tensorAdd (dictGet m0 k) := by
      have h1 : (List.range' 1 rest.length).foldl
          (fun a i => tensorAdd a (dictGet ((m0 :: rest).getD i []) k)) (dictGet m0 k)
          = ((List.range' 1 rest.length).map (fun i => (m0 :: rest).getD i [])).foldl
              (fun a m => tensorAdd a (dictGet m k)) (dictGet m0 k) := by
        rw [List.foldl_map]
      have h2 : (rest.map (fun m => dictGet m k)).foldl tensorAdd (dictGet m0 k)
          = rest.foldl (fun a m => tensorAdd a (dictGet m k)) (dictGet m0 k) := by
        rw [List.foldl_map]
      rw [h1, h2, map_getD_range_dict]
    rw [hfold]
    have hts : ∀ u ∈ rest.map (fun m => dictGet m k), u.length = (dictGet m0 k).length := by
      intro u hu
      rcases List.mem_map.mp hu with ⟨m, hm, rfl⟩
      exact hshape m (List.mem_cons_of_mem _ hm) k
    have hspec := foldl_tensorAdd_spec (rest.map (fun m => dictGet m k)) (dictGet m0 k) hts
    apply List.ext_getElem
    · rw [tensorDivN_length, hspec.1]
      simp [meanTensor]
    · intro j h1 h2
      simp only [tensorDivN, List.getElem_map, meanTensor, List.getElem_range]
      congr 1
      have hj : j < ((rest.map (fun m => dictGet m k)).foldl tensorAdd (dictGet m0 k)).length := by
        rw [tensorDivN_length] at h1
        exact h1
      rw [← List.getD_eq_getElem _ 0 hj, hspec.2 j, List.map_map, List.map_cons, List.sum_cons]
      rfl
  · intro hr
    subst hr
    have hstep : ∀ (w : StateDict) (key : String),
        dictSet w key (tensorDivN
          ((List.range' 1 ((m0 :: ([] : List StateDict)).length - 1)).foldl
            (fun a i => tensorAdd a (dictGet ((m0 :: ([] : List StateDict)).getD i []) key))
            (dictGet w key))
          (m0 :: ([] : List StateDict)).length)
        = dictSet w key (dictGet w key) := by
      intro w key
      show dictSet w key (tensorDivN (dictGet w key) 1) = dictSet w key (dictGet w key)
      rw [tensorDivN_one]
    have hfun : (fun (w : StateDict) (key : String) => dictSet w key (tensorDivN
          ((List.range' 1 ((m0 :: ([] : List StateDict)).length - 1)).foldl
            (fun a i => tensorAdd a (dictGet ((m0 :: ([] : List StateDict)).getD i []) key))
            (dictGet w key))
          (m0 :: ([] : List StateDict)).length))
        = (fun w key => dictSet w key (dictGet w key)) := by
      funext w key
      exact hstep w key
    show (dictKeys m0).foldl _ m0 = m0
    rw [hfun]
    exact foldl_dictSet_get m0 (dictKeys m0) hn0 (fun x hx => hx)

/-- Witness for C1 at a concrete input: two one-parameter models with tensors
`[1, 3]` and `[3, 5]` average to `[2, 4]`, and a singleton list averages to
its sole element. -/
theorem C1_average_weights_is_elementwise_mean_witness :
    ∃ w, average_weights [[("w", [(1 : ℚ), 3])], [("w", [(3 : ℚ), 5])]] = some w ∧
      (∀ k ∈ dictKeys [("w", [(1 : ℚ), 3])], dictGet w k
        = meanTensor [[("w", [(1 : ℚ), 3])], [("w", [(3 : ℚ), 5])]] k) ∧
      ([[("w", [(3 : ℚ), 5])]] = ([] : List StateDict) → w = [("w", [(1 : ℚ), 3])]) :=
  C1_average_weights_is_elementwise_mean [("w", [(1 : ℚ), 3])] [[("w", [(3 : ℚ), 5])]]
    (by decide)
    (by intro m hm k; fin_cases hm <;> exact Iff.rfl)
    (by
      intro m hm k
      fin_cases hm
      · rfl
      · rw [dictGet_cons, dictGet_cons]
        by_cases hw : ("w" : String) = k
        · rw [if_pos hw, if_pos hw]
          rfl
        · rw [if_neg hw, if_neg hw])

/-! ### Heap model for the frame property of `average_weights`

To state what the statements `w_avg = copy.deepcopy(models[0])`,
`w_avg[key] += models[i][key]` and `w_avg[key] = torch.div(...)` do to
memory, state dicts live in an explicit heap (an address is a heap index)
and every assignment is a store.  The function receives the addresses of
the input dicts and allocates a fresh cell for the deep copy. -/

/-- A heap of state dicts; an address is an index into the heap. -/
abbrev Heap := List StateDict

/-- Read the dict at address `a`. -/
def heapGet (h : Heap) (a : ℕ) : StateDict := h.getD a []

/-- Overwrite the dict at address `a`. -/
def heapSet (h : Heap) (a : ℕ) (d : StateDict) : Heap := h.set a d

/-- `copy.deepcopy(h[a])`: allocate a fresh cell holding a copy of the dict
at `a`; return the grown heap and the fresh address. -/
def deepcopyAlloc (h : Heap) (a : ℕ) : Heap × ℕ := (h ++ [heapGet h a], h.length)

/-- The inner loop `for i in range(1, len(models)): w_avg[key] += models[i][key]`
as heap mutation: each `+=` is a store to the cell at address `p2` (the copy). -/
def accumAt (p2 : ℕ) (models : List ℕ) (key : String) (h : Heap) : Heap :=
  (List.range' 1 (models.length - 1)).foldl (fun h i =>
    heapSet h p2 (dictSet (heapGet h p2) key
      (tensorAdd (dictGet (heapGet h p2) key)
        (dictGet (heapGet h (models.getD i 0)) key)))) h

/-- `average_weights(models)` with its mutations made explicit: `models` is a
list of heap addresses; the accumulation and the final division
`w_avg[key] = torch.div(w_avg[key], len(models))` are stores to the freshly
allocated `w_avg` cell, while the input addresses are only ever read. -/
def average_weights_heap (h : Heap) (models : List ℕ) : Option (Heap × ℕ) :=
  match models with
  | [] => none
  | a0 :: _ =>
    let p := deepcopyAlloc h a0
    some ((dictKeys (heapGet p.1 p.2)).foldl (fun h key =>
      heapSet (accumAt p.2 models key h) p.2
        (dictSet (heapGet (accumAt p.2 models key h) p.2) key
          (tensorDivN (dictGet (heapGet (accumAt p.2 models key h) p.2) key)
            models.length))) p.1, p.2)

theorem heapGet_heapSet_ne (h : Heap) (a b : ℕ) (d : StateDict) (hab : b ≠ a) :
    heapGet (heapSet h b d) a = heapGet h a := by
  unfold heapGet heapSet
  rw [List.getD_eq_getD_get?, List.getD_eq_getD_get?, List.get?_set_ne _ _ hab]

theorem heapGet_foldl_preserve {β : Type} (step : Heap → β → Heap) (l : List β)
    (h : Heap) (a : ℕ) (hstep : ∀ h x, heapGet (step h x) a = heapGet h a) :
    heapGet (l.foldl step h) a = heapGet h a := by
  induction l generalizing h with
  | nil => rfl
  | cons x t ih => rw [List.foldl_cons, ih, hstep]

theorem heapGet_accumAt (p : ℕ) (models : List ℕ) (key : String) (h : Heap)
    (a : ℕ) (ha : p ≠ a) : heapGet (accumAt p models key h) a = heapGet h a :=
  heapGet_foldl_preserve _ _ _ _ (fun h' _ => heapGet_heapSet_ne _ _ _ _ ha)

/-- **C10**: `average_weights` never mutates its input dicts: for every valid
list of input addresses, every input cell holds the same dict after the call
as before; only the freshly allocated result cell is written. -/
theorem C10_average_weights_frame (h : Heap) (a0 : ℕ) (addrs : List ℕ)
    (hvalid : ∀ a ∈ a0 :: addrs, a < h.length) :
    ∃ h' w, average_weights_heap h (a0 :: addrs) = some (h', w) ∧
      ∀ a ∈ a0 :: addrs, heapGet h' a = heapGet h a := by
  refine ⟨_, _, rfl, ?_⟩
  intro a ha
  have haw : (deepcopyAlloc h a0).2 ≠ a := (Nat.ne_of_lt (hvalid a ha)).symm
  refine (heapGet_foldl_preserve _ _ _ _ ?_).trans ?_
  · intro h' key
    rw [heapGet_heapSet_ne _ _ _ _ haw]
    exact heapGet_accumAt _ _ _ _ _ haw
  · show heapGet (h ++ [heapGet h a0]) a = heapGet h a
    unfold heapGet
    exact List.getD_append _ _ _ _ (hvalid a ha)

/-- Witness for C10 at a concrete input: a heap with two dicts, both passed
as inputs; both cells are unchanged by the call. -/
theorem C10_average_weights_frame_witness :
    ∃ h' w, average_weights_heap [[("w", [(1 : ℚ)])], [("w", [(3 : ℚ)])]] (0 :: [1])
        = some (h', w) ∧
      ∀ a ∈ 0 :: [1], heapGet h' a
        = heapGet [[("w", [(1 : ℚ)])], [("w", [(3 : ℚ)])]] a :=
  C10_average_weights_frame [[("w", [(1 : ℚ)])], [("w", [(3 : ℚ)])]] 0 [1]
    (by decide)

/-! ### Deterministic partitioning (`dataset_to_nodes_partitioning`)

numpy's globally seeded Mersenne-Twister state is modelled as an explicit
generator state threaded through the computation; `np.random.seed(random_seed)`
replaces the ambient state with a state determined by the seed alone.  The
concrete generator is a linear congruential stand-in: the claims under
verification depend only on determinism and on structural properties
(permutation, in-range draws), never on the distribution of the draws.

The MNIST training set itself is an external collaborator (dataset loading is
out of the verified core); it enters the embedding as its list of labels
`dsLabels` (record `i` has label `dsLabels[i]`) together with its class count
`numClasses` (`len(train_dataset.classes)`, 10 for MNIST). -/

/-- State of the numpy global pseudo-random generator. -/
structure RNG where
  state : ℕ
deriving DecidableEq

/-- `np.random.seed(seed)`. -/
def npSeed (seed : ℕ) : RNG := ⟨seed⟩

/-- One raw draw from the generator (linear congruential step). -/
def rngNext (g : RNG) : ℕ × RNG :=
  ((1664525 * g.state + 1013904223) % 4294967296,
   ⟨(1664525 * g.state + 1013904223) % 4294967296⟩)

/-- One round of `np.random.shuffle`: draw a position in the remaining list
and move that element to the output accumulator. -/
def shuffleStep (st : RNG × List ℕ × List ℕ) : RNG × List ℕ × List ℕ :=
  if st.2.1.length = 0 then st
  else ((rngNext st.1).2,
        st.2.1.eraseIdx ((rngNext st.1).1 % st.2.1.length),
        st.2.1.getD ((rngNext st.1).1 % st.2.1.length) 0 :: st.2.2)

/-- In-place `np.random.shuffle(records_per_class)`: a permutation of the list
driven by the generator (each of the `l.length` rounds moves one element). -/
def npShuffle (g : RNG) (l : List ℕ) : List ℕ × RNG :=
  ((shuffleStep^[l.length] (g, l, [])).2.2.reverse,
   (shuffleStep^[l.length] (g, l, [])).1)

/-- `k` draws uniform on `[0, n)` (the sampling core of `np.random.choice`). -/
def chooseGo (g : RNG) (n : ℕ) : ℕ → List ℕ × RNG
  | 0 => ([], g)
  | k + 1 =>
    ((rngNext g).1 % n :: (chooseGo (rngNext g).2 n k).1,
     (chooseGo (rngNext g).2 n k).2)

/-- `np.random.choice(n, k)`: `k` samples with replacement from `range(n)`.
Raises (`none`) for a negative `k` and for an empty population `n = 0`
(numpy's legacy `RandomState.choice` delegates to `randint(0, n)`, whose
bounds check rejects `low >= high`). -/
def npChoice (g : RNG) (n : ℕ) (k : ℤ) : Option (List ℕ × RNG) :=
  if k < 0 then none
  else if n = 0 then none
  else some (chooseGo g n k.toNat)

/-- `int(len(list) * data_fraction)` from the source: the product of a length
`n` and the fraction `f` is the exact rational `(n * f.num) / f.den`, and
Python's `int()` truncates toward zero, which is `Int.tdiv`. -/
def pyIntMul (n : ℕ) (f : ℚ) : ℤ := Int.tdiv ((n : ℤ) * f.num) (f.den : ℤ)

/-- The chunk sizes `np.array_split` uses: splitting `n` elements into `k`
sections gives `n % k` sections of size `n / k + 1` followed by sections of
size `n / k`. -/
def splitSizes (n k : ℕ) : List ℕ :=
  (List.range k).map (fun i => if i < n % k then n / k + 1 else n / k)

/-- Cut `l` into consecutive chunks of the given sizes. -/
def takeChunks {α : Type} : List ℕ → List α → List (List α)
  | [], _ => []
  | s :: ss, l => l.take s :: takeChunks ss (l.drop s)

/-- `np.array_split(l, k)` (for `k ≥ 1`; `k = 0` raises and is handled at the
call sites). -/
def arraySplit {α : Type} (l : List α) (k : ℕ) : List (List α) :=
  takeChunks (splitSizes l.length k) l

/-- `[index for index, (_, lab) in enumerate(train_dataset) if lab in classes]`. -/
def recordsPerClass (dsLabels : List ℕ) (classes : List ℕ) : List ℕ :=
  (List.range dsLabels.length).filter (fun i => decide (dsLabels.getD i 0 ∈ classes))

/-- One device's partition entry: `(record indices, allowed labels)`. -/
structure NodeData where
  indices : List ℕ
  labels : List ℕ
deriving DecidableEq

/-- The inner `for node in nodes` loop: sample
`int(len(list) * data_fraction)` indices with replacement from the device's
chunk and record `(node, (chosen record indices, classes))`. -/
def processNodes (npa : ℕ) (chunks : List (List ℕ)) (classes : List ℕ) (f : ℚ) :
    List ℕ → List (ℕ × NodeData) → RNG → Option (List (ℕ × NodeData) × RNG)
  | [], mapping, g => some (mapping, g)
  | node :: rest, mapping, g =>
    match npChoice g (chunks.getD (node % npa) []).length
        (pyIntMul (chunks.getD (node % npa) []).length f) with
    | none => none
    | some (js, g') =>
      processNodes npa chunks classes f rest
        (mapping ++ [(node, ⟨js.map (fun j => (chunks.getD (node % npa) []).getD j 0),
          classes⟩)]) g'

/-- The outer `for (nodes, classes)` loop over areas: collect the area's
record indices, optionally shuffle them, split them into `nodes_per_area`
chunks (`np.array_split` raises on `0` sections) and process the area's
nodes. -/
def processAreas (npa : ℕ) (dsLabels : List ℕ) (shuffling : Bool) (f : ℚ) :
    List (List ℕ × List ℕ) → List (ℕ × NodeData) → RNG →
      Option (List (ℕ × NodeData) × RNG)
  | [], mapping, g => some (mapping, g)
  | (nodes, classes) :: rest, mapping, g =>
    if npa = 0 then none
    else
      match processNodes npa
          (arraySplit (if shuffling then npShuffle g (recordsPerClass dsLabels classes)
            else (recordsPerClass dsLabels classes, g)).1 npa)
          classes f nodes mapping
          (if shuffling then npShuffle g (recordsPerClass dsLabels classes)
            else (recordsPerClass dsLabels classes, g)).2 with
      | none => none
      | some (mapping', g') => processAreas npa dsLabels shuffling f rest mapping' g'

/-- `dataset_to_nodes_partitioning(nodes_count, areas, random_seed, shuffling,
data_fraction)` from `main.py`.  `g0` is the ambient numpy global generator
state at call time; the first statement `np.random.seed(random_seed)` replaces
it.  Returns the `index_mapping` dict as an association list in insertion
order, or `none` when the Python run raises. -/
def dataset_to_nodes_partitioning (g0 : RNG) (dsLabels : List ℕ) (numClasses : ℕ)
    (nodes_count areas random_seed : ℕ) (shuffling : Bool) (data_fraction : ℚ) :
    Option (List (ℕ × NodeData)) :=
  if areas = 0 then none
  else
    (processAreas (nodes_count / areas) dsLabels shuffling data_fraction
      ((arraySplit (List.range nodes_count) areas).zip
        (arraySplit (List.range numClasses) areas))
      [] (npSeed random_seed)).map Prod.fst

section RngLemmas

theorem chooseGo_length (g : RNG) (n k : ℕ) : (chooseGo g n k).1.length = k := by
  induction k generalizing g with
  | zero => rfl
  | succ k ih => simp [chooseGo, ih]

theorem chooseGo_lt (g : RNG) (n k : ℕ) (hn : 0 < n) :
    ∀ j ∈ (chooseGo g n k).1, j < n := by
  induction k generalizing g with
  | zero => intro j hj; cases hj
  | succ k ih =>
    intro j hj
    rw [chooseGo] at hj
    simp only [List.mem_cons] at hj
    cases hj with
    | inl h => rw [h]; exact Nat.mod_lt _ hn
    | inr h => exact ih _ j h

theorem getD_cons_eraseIdx_perm (l : List ℕ) (j : ℕ) (hj : j < l.length) :
    (l.getD j 0 :: l.eraseIdx j).Perm l := by
  rw [List.eraseIdx_eq_take_drop_succ, List.getD_eq_getElem l 0 hj]
  refine List.Perm.trans List.perm_middle.symm ?_
  rw [List.getElem_cons_drop, List.take_append_drop]

theorem shuffleStep_perm (st : RNG × List ℕ × List ℕ) :
    ((shuffleStep st).2.2.reverse ++ (shuffleStep st).2.1).Perm
      (st.2.2.reverse ++ st.2.1) := by
  unfold shuffleStep
  by_cases h : st.2.1.length = 0
  · rw [if_pos h]
  · rw [if_neg h]
    have hlt : (rngNext st.1).1 % st.2.1.length < st.2.1.length :=
      Nat.mod_lt _ (Nat.pos_of_ne_zero h)
    show ((st.2.1.getD ((rngNext st.1).1 % st.2.1.length) 0 :: st.2.2).reverse
      ++ st.2.1.eraseIdx ((rngNext st.1).1 % st.2.1.length)).Perm
      (st.2.2.reverse ++ st.2.1)
    rw [List.reverse_cons, List.append_assoc, List.singleton_append]
    exact List.Perm.append_left _ (getD_cons_eraseIdx_perm st.2.1
      ((rngNext st.1).1 % st.2.1.length) hlt)

theorem shuffleStep_iterate_perm (n : ℕ) (st : RNG × List ℕ × List ℕ) :
    ((shuffleStep^[n] st).2.2.reverse ++ (shuffleStep^[n] st).2.1).Perm
      (st.2.2.reverse ++ st.2.1) := by
  induction n generalizing st with
  | zero => exact List.Perm.refl _
  | succ n ih =>
    rw [Function.iterate_succ_apply]
    exact (ih (shuffleStep st)).trans (shuffleStep_perm st)

theorem shuffleStep_iterate_nil (n : ℕ) : ∀ (st : RNG × List ℕ × List ℕ),
    st.2.1.length ≤ n → (shuffleStep^[n] st).2.1 = [] := by
  induction n with
  | zero =>
    intro st h
    exact List.length_eq_zero.mp (Nat.le_zero.mp h)
  | succ n ih =>
    intro st h
    rw [Function.iterate_succ_apply]
    apply ih
    unfold shuffleStep
    by_cases h0 : st.2.1.length = 0
    · rw [if_pos h0]
      omega
    · rw [if_neg h0]
      show (st.2.1.eraseIdx ((rngNext st.1).1 % st.2.1.length)).length ≤ n
      rw [List.length_eraseIdx, if_pos (Nat.mod_lt _ (Nat.pos_of_ne_zero h0))]
      omega

theorem npShuffle_perm (g : RNG) (l : List ℕ) : (npShuffle g l).1.Perm l := by
  have h1 := shuffleStep_iterate_perm l.length (g, l, [])
  have h2 := shuffleStep_iterate_nil l.length (g, l, []) le_rfl
  rw [h2, List.append_nil] at h1
  simpa [npShuffle] using h1

end RngLemmas

section SplitLemmas

variable {α : Type}

theorem takeChunks_length (ss : List ℕ) (l : List α) :
    (takeChunks ss l).length = ss.length := by
  induction ss generalizing l with
  | nil => rfl
  | cons s ss ih => simp [takeChunks, ih]

theorem splitSizes_length (n k : ℕ) : (splitSizes n k).length = k := by
  simp [splitSizes]

theorem arraySplit_length (l : List α) (k : ℕ) : (arraySplit l k).length = k := by
  rw [arraySplit, takeChunks_length, splitSizes_length]

theorem sum_ite_lt (k : ℕ) : ∀ m c : ℕ, m ≤ k →
    ((List.range k).map (fun i => if i < m then c + 1 else c)).sum = k * c + m := by
  induction k with
  | zero =>
    intro m c hm
    have hm0 : m = 0 := Nat.le_zero.mp hm
    subst hm0
    simp
  | succ k ih =>
    intro m c hm
    rw [List.range_succ, List.map_append, List.sum_append]
    simp only [List.map_cons, List.map_nil, List.sum_cons, List.sum_nil]
    by_cases h : k < m
    · have hm1 : m = k + 1 := le_antisymm hm h
      have hpre : ((List.range k).map (fun i => if i < m then c + 1 else c)).sum
          = ((List.range k).map (fun i => if i < k then c + 1 else c)).sum := by
        congr 1
        apply List.map_congr_left
        intro i hi
        have hik := List.mem_range.mp hi
        rw [if_pos (by omega), if_pos (by omega)]
      rw [hpre, ih k c le_rfl, if_pos h, hm1, Nat.succ_mul]
      omega
    · rw [ih m c (by omega), if_neg h, Nat.succ_mul]
      omega

theorem splitSizes_sum (n k : ℕ) (hk : 0 < k) : (splitSizes n k).sum = n := by
  unfold splitSizes
  rw [sum_ite_lt k (n % k) (n / k) (le_of_lt (Nat.mod_lt n hk))]
  exact Nat.div_add_mod n k

theorem takeChunks_flatten (ss : List ℕ) (l : List α) :
    (takeChunks ss l).flatten = l.take ss.sum := by
  induction ss generalizing l with
  | nil => simp [takeChunks]
  | cons s ss ih =>
    rw [takeChunks, List.flatten_cons, ih, List.sum_cons, List.take_add]

theorem arraySplit_flatten (l : List α) (k : ℕ) (hk : 0 < k) :
    (arraySplit l k).flatten = l := by
  rw [arraySplit, takeChunks_flatten, splitSizes_sum _ _ hk, List.take_length]

theorem takeChunks_subset (ss : List ℕ) (l : List α) :
    ∀ c ∈ takeChunks ss l, ∀ x ∈ c, x ∈ l := by
  induction ss generalizing l with
  | nil => intro c hc; cases hc
  | cons s ss ih =>
    intro c hc x hx
    rw [takeChunks] at hc
    rcases List.mem_cons.mp hc with h | h
    · exact List.take_subset s l (h ▸ hx)
    · exact List.drop_subset s l (ih (l.drop s) c h x hx)

theorem takeChunks_map_length (ss : List ℕ) (l : List α) (h : ss.sum ≤ l.length) :
    (takeChunks ss l).map List.length = ss := by
  induction ss generalizing l with
  | nil => rfl
  | cons s ss ih =>
    rw [List.sum_cons] at h
    rw [takeChunks, List.map_cons]
    congr 1
    · rw [List.length_take]
      omega
    · apply ih
      rw [List.length_drop]
      omega

theorem takeChunks_pairwise_disjoint (ss : List ℕ) (l : List α) (hl : l.Nodup) :
    List.Pairwise (fun c1 c2 => ∀ x ∈ c1, x ∉ c2) (takeChunks ss l) := by
  induction ss generalizing l with
  | nil => exact List.Pairwise.nil
  | cons s ss ih =>
    rw [takeChunks]
    refine List.Pairwise.cons ?_ (ih (l.drop s) (List.Nodup.sublist (List.drop_sublist s l) hl))
    intro c hc x hx hxc
    have hxd : x ∈ l.drop s := takeChunks_subset ss (l.drop s) c hc x hxc
    exact (List.disjoint_take_drop hl le_rfl) hx hxd

theorem splitSizes_dvd (n k : ℕ) (hdvd : k ∣ n) :
    splitSizes n k = List.replicate k (n / k) := by
  obtain ⟨c, rfl⟩ := hdvd
  unfold splitSizes
  apply List.ext_getElem
  · simp
  · intro i h1 h2
    simp only [List.getElem_map, List.getElem_range, List.getElem_replicate,
      Nat.mul_mod_right]
    simp

theorem range'_take (s m j : ℕ) : (List.range' s m).take j = List.range' s (min j m) := by
  induction m generalizing s j with
  | zero => simp
  | succ m ih =>
    cases j with
    | zero => simp
    | succ j =>
      rw [List.range'_succ, List.take_succ_cons, ih (s + 1) j,
        show min (j + 1) (m + 1) = (min j m) + 1 by omega, List.range'_succ]

theorem range'_drop (s m j : ℕ) : (List.range' s m).drop j = List.range' (s + j) (m - j) := by
  induction m generalizing s j with
  | zero => simp
  | succ m ih =>
    cases j with
    | zero => simp
    | succ j =>
      rw [List.range'_succ, List.drop_succ_cons, ih (s + 1) j,
        show s + 1 + j = s + (j + 1) by omega, show m - j = m + 1 - (j + 1) by omega]

end SplitLemmas

section RecordsLemmas

theorem mem_recordsPerClass (dsLabels classes : List ℕ) (i : ℕ) :
    i ∈ recordsPerClass dsLabels classes ↔
      i < dsLabels.length ∧ dsLabels.getD i 0 ∈ classes := by
  unfold recordsPerClass
  rw [List.mem_filter, List.mem_range]
  simp

theorem recordsPerClass_nodup (dsLabels classes : List ℕ) :
    (recordsPerClass dsLabels classes).Nodup :=
  List.Nodup.filter _ (List.nodup_range _)

end RecordsLemmas

/-- What holds of a single `index_mapping[node]` entry produced from the chunk
list `chunks` of its area and the area's label block `classes`. -/
def NodeEntryOK (npa : ℕ) (chunks : List (List ℕ)) (classes : List ℕ) (f : ℚ)
    (e : ℕ × NodeData) : Prop :=
  e.2.labels = classes ∧
  (e.2.indices.length : ℤ) = pyIntMul (chunks.getD (e.1 % npa) []).length f ∧
  ∀ i ∈ e.2.indices, i ∈ chunks.getD (e.1 % npa) []

theorem npChoice_some (g : RNG) (n : ℕ) (k : ℤ) (js : List ℕ) (g' : RNG)
    (h : npChoice g n k = some (js, g')) :
    0 ≤ k ∧ 0 < n ∧ js = (chooseGo g n k.toNat).1 ∧ js.length = k.toNat := by
  unfold npChoice at h
  by_cases h1 : k < 0
  · rw [if_pos h1] at h; cases h
  · rw [if_neg h1] at h
    by_cases h2 : n = 0
    · rw [if_pos h2] at h; cases h
    · rw [if_neg h2] at h
      injection h with h3
      have hfst : (chooseGo g n k.toNat).1 = js := congrArg Prod.fst h3
      refine ⟨le_of_not_lt h1, Nat.pos_of_ne_zero h2, hfst.symm, ?_⟩
      rw [← hfst]
      exact chooseGo_length g n k.toNat

theorem processNodes_sound (npa : ℕ) (chunks : List (List ℕ)) (classes : List ℕ)
    (f : ℚ) (nodes : List ℕ) (mapping : List (ℕ × NodeData)) (g : RNG)
    (m : List (ℕ × NodeData)) (g' : RNG)
    (h : processNodes npa chunks classes f nodes mapping g = some (m, g')) :
    ∃ w, m = mapping ++ w ∧ w.map Prod.fst = nodes ∧
      ∀ e ∈ w, NodeEntryOK npa chunks classes f e := by
  induction nodes generalizing mapping g with
  | nil =>
    rw [processNodes] at h
    injection h with h1
    refine ⟨[], ?_, rfl, by intro e he; cases he⟩
    rw [List.append_nil]
    exact (congrArg Prod.fst h1).symm
  | cons node rest ih =>
    rw [processNodes] at h
    cases hc : npChoice g (chunks.getD (node % npa) []).length
        (pyIntMul (chunks.getD (node % npa) []).length f) with
    | none => rw [hc] at h; cases h
    | some p =>
      obtain ⟨js, g2⟩ := p
      rw [hc] at h
      obtain ⟨w, hw, hfst, hok⟩ := ih _ _ h
      obtain ⟨hk0, hn0, hjs, hlen⟩ := npChoice_some _ _ _ _ _ hc
      refine ⟨(node, ⟨js.map (fun j => (chunks.getD (node % npa) []).getD j 0),
        classes⟩) :: w, ?_, ?_, ?_⟩
      · rw [hw, List.append_assoc, List.singleton_append]
      · simp [hfst]
      · intro e he
        rcases List.mem_cons.mp he with h1 | h1
        · rw [h1]
          refine ⟨rfl, ?_, ?_⟩
          · show ((js.map _).length : ℤ) = _
            rw [List.length_map, hlen, Int.toNat_of_nonneg hk0]
          · intro i hi
            rcases List.mem_map.mp hi with ⟨j, hj, hij⟩
            have hjlt : j < (chunks.getD (node % npa) []).length := by
              rw [hjs] at hj
              exact chooseGo_lt g _ _ hn0 j hj
            rw [← hij, List.getD_eq_getElem _ _ hjlt]
            exact List.getElem_mem hjlt
        · exact hok e h1

theorem processAreas_sound (npa : ℕ) (dsLabels : List ℕ) (shuffling : Bool) (f : ℚ)
    (pairs : List (List ℕ × List ℕ)) (mapping : List (ℕ × NodeData)) (g : RNG)
    (m : List (ℕ × NodeData)) (g' : RNG)
    (h : processAreas npa dsLabels shuffling f pairs mapping g = some (m, g')) :
    (pairs = [] ∨ npa ≠ 0) ∧
    ∃ segs : List (List (ℕ × NodeData)), m = mapping ++ segs.flatten ∧
      List.Forall₂ (fun (seg : List (ℕ × NodeData)) (pr : List ℕ × List ℕ) =>
        ∃ recs : List ℕ, recs.Perm (recordsPerClass dsLabels pr.2) ∧
          seg.map Prod.fst = pr.1 ∧
          ∀ e ∈ seg, NodeEntryOK npa (arraySplit recs npa) pr.2 f e) segs pairs := by
  induction pairs generalizing mapping g with
  | nil =>
    rw [processAreas] at h
    injection h with h1
    refine ⟨Or.inl rfl, [], ?_, List.Forall₂.nil⟩
    rw [List.flatten_nil, List.append_nil]
    exact (congrArg Prod.fst h1).symm
  | cons pr rest ih =>
    obtain ⟨nodes, classes⟩ := pr
    rw [processAreas] at h
    by_cases h0 : npa = 0
    · rw [if_pos h0] at h; cases h
    · rw [if_neg h0] at h
      cases hp : processNodes npa
          (arraySplit (if shuffling then npShuffle g (recordsPerClass dsLabels classes)
            else (recordsPerClass dsLabels classes, g)).1 npa)
          classes f nodes mapping
          (if shuffling then npShuffle g (recordsPerClass dsLabels classes)
            else (recordsPerClass dsLabels classes, g)).2 with
      | none => rw [hp] at h; cases h
      | some q =>
        obtain ⟨m1, g1⟩ := q
        rw [hp] at h
        obtain ⟨-, segs, hm, hall⟩ := ih _ _ h
        obtain ⟨w, hw, hfst, hok⟩ := processNodes_sound _ _ _ _ _ _ _ _ _ hp
        refine ⟨Or.inr h0, w :: segs, ?_, ?_⟩
        · rw [hm, hw, List.flatten_cons, List.append_assoc]
        · refine List.Forall₂.cons ⟨(if shuffling then
            npShuffle g (recordsPerClass dsLabels classes)
            else (recordsPerClass dsLabels classes, g)).1, ?_, hfst, hok⟩ hall
          by_cases hs : shuffling
          · rw [if_pos hs]
            exact npShuffle_perm g (recordsPerClass dsLabels classes)
          · rw [if_neg hs]

theorem partition_sound (g0 : RNG) (dsLabels : List ℕ)
    (numClasses nodes_count areas seed : ℕ) (shuffling : Bool) (f : ℚ)
    (m : List (ℕ × NodeData))
    (h : dataset_to_nodes_partitioning g0 dsLabels numClasses nodes_count areas
      seed shuffling f = some m) :
    0 < areas ∧ 0 < nodes_count / areas ∧
    ∃ segs : List (List (ℕ × NodeData)), m = segs.flatten ∧
      List.Forall₂ (fun (seg : List (ℕ × NodeData)) (pr : List ℕ × List ℕ) =>
        ∃ recs : List ℕ, recs.Perm (recordsPerClass dsLabels pr.2) ∧
          seg.map Prod.fst = pr.1 ∧
          ∀ e ∈ seg, NodeEntryOK (nodes_count / areas) (arraySplit recs
            (nodes_count / areas)) pr.2 f e) segs
        ((arraySplit (List.range nodes_count) areas).zip
          (arraySplit (List.range numClasses) areas)) := by
  unfold dataset_to_nodes_partitioning at h
  by_cases ha : areas = 0
  · rw [if_pos ha] at h; cases h
  · rw [if_neg ha] at h
    obtain ⟨⟨m', g'⟩, hpa, hm⟩ := Option.map_eq_some'.mp h
    obtain ⟨hnpa, segs, hms, hall⟩ := processAreas_sound _ _ _ _ _ _ _ _ _ hpa
    have hpairs : ((arraySplit (List.range nodes_count) areas).zip
        (arraySplit (List.range numClasses) areas)).length = areas := by
      rw [List.length_zip, arraySplit_length, arraySplit_length]
      exact min_self areas
    refine ⟨Nat.pos_of_ne_zero ha, ?_, segs, ?_, hall⟩
    · rcases hnpa with h1 | h1
      · exact absurd (by rw [h1] at hpairs; simpa using hpairs.symm) ha
      · exact Nat.pos_of_ne_zero h1
    · rw [← hm]
      rw [hms, List.nil_append]

section PartitionHelpers

theorem forall₂_mem_left {α β : Type} {R : α → β → Prop} {l1 : List α} {l2 : List β}
    (hf : List.Forall₂ R l1 l2) : ∀ a ∈ l1, ∃ b ∈ l2, R a b := by
  induction hf with
  | nil => intro a ha; cases ha
  | cons hr _ ih =>
    intro x hx
    rcases List.mem_cons.mp hx with h | h
    · exact ⟨_, by simp, h ▸ hr⟩
    · obtain ⟨b, hb, hrb⟩ := ih x h
      exact ⟨b, List.mem_cons_of_mem _ hb, hrb⟩

theorem forall₂_getElem {α β : Type} {R : α → β → Prop} {l1 : List α} {l2 : List β}
    (h : List.Forall₂ R l1 l2) (i : ℕ) (h1 : i < l1.length) (h2 : i < l2.length) :
    R l1[i] l2[i] := h.get h1 h2

theorem mem_getD_arraySplit (recs : List ℕ) (npa j i : ℕ)
    (hi : i ∈ (arraySplit recs npa).getD j []) : i ∈ recs := by
  by_cases hj : j < (arraySplit recs npa).length
  · rw [List.getD_eq_getElem _ _ hj] at hi
    exact takeChunks_subset _ _ _ (List.getElem_mem hj) i hi
  · rw [List.getD_eq_default _ _ (le_of_not_lt hj)] at hi
    cases hi

theorem arraySplit_sizes {α : Type} (l : List α) (k : ℕ) (hk : 0 < k) :
    (arraySplit l k).map List.length = splitSizes l.length k := by
  rw [arraySplit]
  apply takeChunks_map_length
  rw [splitSizes_sum _ _ hk]

theorem getD_arraySplit_length (recs : List ℕ) (npa j : ℕ) (hk : 0 < npa) :
    ((arraySplit recs npa).getD j []).length
      = (splitSizes recs.length npa).getD j 0 := by
  have h0 : ((arraySplit recs npa).map List.length).getD j (List.length [])
      = List.length ((arraySplit recs npa).getD j []) := List.getD_map _ _ _
  rw [arraySplit_sizes recs npa hk] at h0
  simpa using h0.symm

theorem splitSizes_getD_pos (n k j : ℕ) (hk : 0 < k) (hkn : k ≤ n) (hj : j < k) :
    0 < (splitSizes n k).getD j 0 := by
  have hj2 : j < (splitSizes n k).length := by rw [splitSizes_length]; exact hj
  rw [List.getD_eq_getElem _ _ hj2]
  unfold splitSizes
  simp only [List.getElem_map, List.getElem_range]
  have := Nat.div_pos hkn hk
  by_cases h : j < n % k <;> simp [h] <;> omega

theorem pyIntMul_eq_floor (n : ℕ) (f : ℚ) (hf : 0 ≤ f) :
    pyIntMul n f = ⌊(n : ℚ) * f⌋ := by
  unfold pyIntMul
  have hq : (n : ℚ) * f = (((n : ℤ) * f.num : ℤ) : ℚ) / ((f.den : ℕ) : ℚ) := by
    conv_lhs => rw [← Rat.num_div_den f]
    push_cast
    ring
  rw [hq, Rat.floor_intCast_div_natCast]
  have hnum : 0 ≤ (n : ℤ) * f.num :=
    mul_nonneg (by positivity) (Rat.num_nonneg.mpr hf)
  exact Int.tdiv_eq_ediv hnum (by positivity)

theorem pairwise_disjoint_mem (l : List (List ℕ))
    (hp : List.Pairwise (fun c1 c2 => ∀ x ∈ c1, x ∉ c2) l)
    (a b : List ℕ) (ha : a ∈ l) (hb : b ∈ l) : a = b ∨ ∀ x ∈ a, x ∉ b := by
  rcases List.mem_iff_getElem.mp ha with ⟨i, hi, hia⟩
  rcases List.mem_iff_getElem.mp hb with ⟨j, hj, hjb⟩
  rcases lt_trichotomy i j with h | h | h
  · right
    rw [← hia, ← hjb]
    exact (List.pairwise_iff_getElem.mp hp) i j hi hj h
  · left
    subst h
    rw [← hia, ← hjb]
  · right
    intro x hx hxb
    exact (List.pairwise_iff_getElem.mp hp) j i hj hi h x (hjb ▸ hxb) (hia ▸ hx)

theorem mod_inj_of_range' (t npa x y : ℕ) (hx : x ∈ List.range' t npa)
    (hy : y ∈ List.range' t npa) (hmod : x % npa = y % npa) : x = y := by
  cases npa with
  | zero => cases hx
  | succ p =>
    rw [List.mem_range'_1] at hx hy
    have h1 : (t + (x - t)) % (p + 1) = (t + (y - t)) % (p + 1) := by
      rw [show t + (x - t) = x by omega, show t + (y - t) = y by omega]
      exact hmod
    have h2 : (x - t) % (p + 1) = (y - t) % (p + 1) :=
      Nat.ModEq.add_left_cancel' t h1
    rw [Nat.mod_eq_of_lt (by omega), Nat.mod_eq_of_lt (by omega)] at h2
    omega

theorem chunk_of_replicate_range' (npa : ℕ) :
    ∀ (k s m : ℕ), m = k * npa →
      ∀ c ∈ takeChunks (List.replicate k npa) (List.range' s m),
        ∃ t, c = List.range' t npa := by
  intro k
  induction k with
  | zero => intro s m _ c hc; cases hc
  | succ k ih =>
    intro s m hm c hc
    have hm' : m = k * npa + npa := by rw [hm, Nat.succ_mul]
    rw [List.replicate_succ, takeChunks] at hc
    rcases List.mem_cons.mp hc with h | h
    · refine ⟨s, ?_⟩
      rw [h, range'_take, min_eq_left (by omega)]
    · rw [range'_drop] at h
      exact ih (s + npa) (m - npa) (by omega) c h

end PartitionHelpers

/-- **C2**: the partition is a function of its arguments alone.  The embedding
makes numpy's ambient global generator state an explicit input `g`, and the
source's first statement `np.random.seed(random_seed)` overwrites it, so two
calls with identical (dataset, device_count, area_count, seed, shuffle flag,
sample_fraction) return identical device-to-(indices, allowed_labels)
mappings irrespective of the generator states the calls start from. -/
theorem C2_partition_deterministic (g1 g2 : RNG) (dsLabels : List ℕ)
    (numClasses nodes_count areas seed : ℕ) (shuffling : Bool) (f : ℚ) :
    dataset_to_nodes_partitioning g1 dsLabels numClasses nodes_count areas seed
      shuffling f
    = dataset_to_nodes_partitioning g2 dsLabels numClasses nodes_count areas seed
      shuffling f := rfl

/-- Every record index of every device refers into the dataset and carries a
label from the device's `allowed_labels`. -/
def LabelRestricted (dsLabels : List ℕ) (m : List (ℕ × NodeData)) : Prop :=
  ∀ e ∈ m, ∀ i ∈ e.2.indices,
    i < dsLabels.length ∧ dsLabels.getD i 0 ∈ e.2.labels

/-- **C3**: label restriction — every record index in a device's shard is a
valid dataset index whose label lies in that device's `allowed_labels`. -/
theorem C3_label_restriction (g0 : RNG) (dsLabels : List ℕ)
    (numClasses nodes_count areas seed : ℕ) (shuffling : Bool) (f : ℚ)
    (m : List (ℕ × NodeData))
    (h : dataset_to_nodes_partitioning g0 dsLabels numClasses nodes_count areas
      seed shuffling f = some m) :
    LabelRestricted dsLabels m := by
  obtain ⟨hA, hnpa, segs, hm, hall⟩ := partition_sound _ _ _ _ _ _ _ _ _ h
  intro e he i hi
  rw [hm] at he
  rcases List.mem_flatten.mp he with ⟨seg, hseg, hes⟩
  obtain ⟨pr, _, recs, hperm, _, hok⟩ := forall₂_mem_left hall seg hseg
  obtain ⟨hlab, _, hsub⟩ := hok e hes
  have hirec : i ∈ recs := mem_getD_arraySplit recs _ _ i (hsub i hi)
  have hirecs : i ∈ recordsPerClass dsLabels pr.2 := hperm.mem_iff.mp hirec
  rw [mem_recordsPerClass] at hirecs
  exact ⟨hirecs.1, hlab ▸ hirecs.2⟩

/-- Witness for C3 at a concrete input: an 8-record, 4-class dataset split
over 4 devices in 2 areas with shuffling and half sampling. -/
theorem C3_label_restriction_witness :
    LabelRestricted [0, 0, 1, 1, 2, 2, 3, 3]
      [(0, NodeData.mk [0] [0, 1]), (1, NodeData.mk [3] [0, 1]),
       (2, NodeData.mk [6] [2, 3]), (3, NodeData.mk [5] [2, 3])] :=
  C3_label_restriction (npSeed 5) [0, 0, 1, 1, 2, 2, 3, 3] 4 4 2 1 true (mkRat 1 2)
    [(0, NodeData.mk [0] [0, 1]), (1, NodeData.mk [3] [0, 1]),
     (2, NodeData.mk [6] [2, 3]), (3, NodeData.mk [5] [2, 3])] (by decide)

/-- **C4**: partition coverage — the union over all devices of their
`allowed_labels` is exactly the dataset's label-class set `{0, …, numClasses-1}`,
and the per-area label sets are pairwise disjoint: any two devices' label sets
are either identical (same area) or disjoint (distinct areas). -/
theorem C4_partition_coverage (g0 : RNG) (dsLabels : List ℕ)
    (numClasses nodes_count areas seed : ℕ) (shuffling : Bool) (f : ℚ)
    (m : List (ℕ × NodeData))
    (h : dataset_to_nodes_partitioning g0 dsLabels numClasses nodes_count areas
      seed shuffling f = some m) :
    (∀ c, (∃ e ∈ m, c ∈ e.2.labels) ↔ c < numClasses) ∧
    (∀ e1 ∈ m, ∀ e2 ∈ m, e1.2.labels = e2.2.labels ∨
      ∀ c ∈ e1.2.labels, c ∉ e2.2.labels) := by
  obtain ⟨hA, hnpa, segs, hm, hall⟩ := partition_sound _ _ _ _ _ _ _ _ _ h
  have hlabmem : ∀ e ∈ m, e.2.labels ∈ arraySplit (List.range numClasses) areas := by
    intro e he
    rw [hm] at he
    rcases List.mem_flatten.mp he with ⟨seg, hseg, hes⟩
    obtain ⟨pr, hpr, recs, _, _, hok⟩ := forall₂_mem_left hall seg hseg
    rw [(hok e hes).1]
    exact (List.of_mem_zip hpr).2
  constructor
  · intro c
    constructor
    · rintro ⟨e, he, hc⟩
      exact List.mem_range.mp (takeChunks_subset _ _ _ (hlabmem e he) c hc)
    · intro hc
      have hflat : c ∈ (arraySplit (List.range numClasses) areas).flatten := by
        rw [arraySplit_flatten _ _ hA]
        exact List.mem_range.mpr hc
      rcases List.mem_flatten.mp hflat with ⟨cls, hclsmem, hcc⟩
      rcases List.mem_iff_getElem.mp hclsmem with ⟨k, hk, hkcls⟩
      have hlenB : (arraySplit (List.range numClasses) areas).length = areas :=
        arraySplit_length _ _
      have hlenA : (arraySplit (List.range nodes_count) areas).length = areas :=
        arraySplit_length _ _
      have hkB : k < areas := by rw [hlenB] at hk; exact hk
      have hkA : k < (arraySplit (List.range nodes_count) areas).length := by
        rw [hlenA]; exact hkB
      have hkz : k < ((arraySplit (List.range nodes_count) areas).zip
          (arraySplit (List.range numClasses) areas)).length := by
        rw [List.length_zip, hlenA, hlenB]
        simpa using hkB
      have hksegs : k < segs.length := by
        rw [hall.length_eq]
        exact hkz
      have hrel := forall₂_getElem hall k hksegs hkz
      rw [List.getElem_zip] at hrel
      obtain ⟨recs, hperm, hfst, hok⟩ := hrel
      have hchunklen : ((arraySplit (List.range nodes_count) areas)[k]).length
          = (splitSizes nodes_count areas).getD k 0 := by
        rw [← List.getD_eq_getElem _ ([] : List ℕ) hkA,
          getD_arraySplit_length _ _ _ hA, List.length_range]
      have hpos : 0 < ((arraySplit (List.range nodes_count) areas)[k]).length := by
        rw [hchunklen]
        exact splitSizes_getD_pos nodes_count areas k hA
          ((Nat.div_pos_iff (Nat.pos_iff_ne_zero.mp hA)).mp hnpa) hkB
      have hseg_ne : segs[k] ≠ [] := by
        intro hnil
        rw [hnil] at hfst
        simp only [List.map_nil] at hfst
        rw [← hfst] at hpos
        simp at hpos
      obtain ⟨e, he⟩ := List.exists_mem_of_ne_nil _ hseg_ne
      refine ⟨e, ?_, ?_⟩
      · rw [hm]
        exact List.mem_flatten.mpr ⟨segs[k], List.getElem_mem hksegs, he⟩
      · rw [(hok e he).1, hkcls]
        exact hcc
  · intro e1 he1 e2 he2
    have hp := takeChunks_pairwise_disjoint (splitSizes (List.range numClasses).length
      areas) (List.range numClasses) (List.nodup_range numClasses)
    exact pairwise_disjoint_mem _ hp _ _ (hlabmem e1 he1) (hlabmem e2 he2)

/-- Witness for C4 at a concrete input: 2 devices, 2 areas over a 2-class
dataset. -/
theorem C4_partition_coverage_witness :
    (∀ c, (∃ e ∈ [(0, NodeData.mk [0] [0]), (1, NodeData.mk [1] [1])],
        c ∈ e.2.labels) ↔ c < 2) ∧
    (∀ e1 ∈ [(0, NodeData.mk [0] [0]), (1, NodeData.mk [1] [1])],
      ∀ e2 ∈ [(0, NodeData.mk [0] [0]), (1, NodeData.mk [1] [1])],
        e1.2.labels = e2.2.labels ∨ ∀ c ∈ e1.2.labels, c ∉ e2.2.labels) :=
  C4_partition_coverage (npSeed 0) [0, 1] 2 2 2 0 false (mkRat 1 1)
    [(0, NodeData.mk [0] [0]), (1, NodeData.mk [1] [1])] (by decide)

/-- Every device of the mapping `m` belongs to an area pair `pr` (node block,
label block); the area's records (a permutation `recs` of the records whose
label lies in `pr.2` — the identity when shuffling is off) are split into
`nodes_per_area` chunks, and the device's chunk is the one at position
`node % nodes_per_area` (the source's
`split_record_per_node[node % nodes_per_area]`).  The device's index count is
exactly `⌊chunk_size * f⌋` for the size of THAT chunk, and every one of its
indices lies in that chunk (sampling is with replacement, so duplicates are
possible, but nothing comes from outside the device's own chunk). -/
def SampleFractionOK (dsLabels : List ℕ) (numClasses nodes_count areas : ℕ)
    (f : ℚ) (m : List (ℕ × NodeData)) : Prop :=
  ∀ e ∈ m, ∃ pr ∈ (arraySplit (List.range nodes_count) areas).zip
      (arraySplit (List.range numClasses) areas),
    e.1 ∈ pr.1 ∧
    ∃ recs : List ℕ, recs.Perm (recordsPerClass dsLabels pr.2) ∧
      (e.2.indices.length : ℤ)
        = ⌊((((arraySplit recs (nodes_count / areas)).getD
            (e.1 % (nodes_count / areas)) []).length : ℕ) : ℚ) * f⌋ ∧
      ∀ i ∈ e.2.indices,
        i ∈ (arraySplit recs (nodes_count / areas)).getD
          (e.1 % (nodes_count / areas)) []

/-- **C5**: sample-fraction bound — each device receives exactly
`⌊chunk_size * f⌋` record indices for the size of its own chunk of the area's
records, drawn with replacement from that very chunk (duplicates possible,
but only indices from the chunk). -/
theorem C5_sample_fraction_bound (g0 : RNG) (dsLabels : List ℕ)
    (numClasses nodes_count areas seed : ℕ) (shuffling : Bool) (f : ℚ)
    (m : List (ℕ × NodeData))
    (h : dataset_to_nodes_partitioning g0 dsLabels numClasses nodes_count areas
      seed shuffling f = some m) (hf : 0 ≤ f) :
    SampleFractionOK dsLabels numClasses nodes_count areas f m := by
  obtain ⟨hA, hnpa, segs, hm, hall⟩ := partition_sound _ _ _ _ _ _ _ _ _ h
  intro e he
  rw [hm] at he
  rcases List.mem_flatten.mp he with ⟨seg, hseg, hes⟩
  obtain ⟨pr, hpr, recs, hperm, hfst, hok⟩ := forall₂_mem_left hall seg hseg
  obtain ⟨hlab, hcount, hsub⟩ := hok e hes
  refine ⟨pr, hpr, ?_, recs, hperm, ?_, hsub⟩
  · rw [← hfst]
    exact List.mem_map_of_mem Prod.fst hes
  · rw [hcount]
    exact pyIntMul_eq_floor _ f hf

/-- Witness for C5 at a concrete input: 8 records, 4 classes, 4 devices,
2 areas, half sampling fraction. -/
theorem C5_sample_fraction_bound_witness :
    SampleFractionOK [0, 0, 1, 1, 2, 2, 3, 3] 4 4 2 (mkRat 1 2)
      [(0, NodeData.mk [0] [0, 1]), (1, NodeData.mk [3] [0, 1]),
       (2, NodeData.mk [6] [2, 3]), (3, NodeData.mk [5] [2, 3])] :=
  C5_sample_fraction_bound (npSeed 5) [0, 0, 1, 1, 2, 2, 3, 3] 4 4 2 1 true
    (mkRat 1 2)
    [(0, NodeData.mk [0] [0, 1]), (1, NodeData.mk [3] [0, 1]),
     (2, NodeData.mk [6] [2, 3]), (3, NodeData.mk [5] [2, 3])]
    (by decide) (by decide)

/-- Pairwise disjointness of device shards, as claim C6 states it. -/
def DisjointShards (m : List (ℕ × NodeData)) : Prop :=
  ∀ e1 ∈ m, ∀ e2 ∈ m, e1.1 ≠ e2.1 → ∀ i ∈ e1.2.indices, i ∉ e2.2.indices

/-- **C6** counterexample: with 3 devices and 2 areas over a 2-record dataset
(area_count not dividing device_count), the partitioner returns a mapping in
which devices 0 and 1 both receive record index 0: the shards of distinct
devices are not pairwise disjoint. -/
theorem C6_disjoint_shards_counterexample :
    ¬ (∀ m, dataset_to_nodes_partitioning (npSeed 0) [0, 1] 2 3 2 1 false
        (mkRat 1 1) = some m → DisjointShards m) := by
  intro hdis
  have h := hdis [(0, NodeData.mk [0] [0]), (1, NodeData.mk [0] [0]),
    (2, NodeData.mk [1] [1])] (by decide)
  exact h (0, NodeData.mk [0] [0]) (by decide) (1, NodeData.mk [0] [0])
    (by decide) (by decide) 0 (by decide) (by decide)

/-- **C6** amended: when `area_count` divides `device_count` (the spec's
compatibility requirement on configurations), the index lists assigned to
distinct devices are pairwise disjoint. -/
theorem C6_disjoint_shards_of_dvd (g0 : RNG) (dsLabels : List ℕ)
    (numClasses nodes_count areas seed : ℕ) (shuffling : Bool) (f : ℚ)
    (m : List (ℕ × NodeData))
    (h : dataset_to_nodes_partitioning g0 dsLabels numClasses nodes_count areas
      seed shuffling f = some m)
    (hdvd : areas ∣ nodes_count) : DisjointShards m := by
  obtain ⟨hA, hnpa, segs, hm, hall⟩ := partition_sound _ _ _ _ _ _ _ _ _ h
  intro e1 he1 e2 he2 hne i hi1 hi2
  rw [hm] at he1 he2
  rcases List.mem_flatten.mp he1 with ⟨seg1, hs1, he1'⟩
  rcases List.mem_flatten.mp he2 with ⟨seg2, hs2, he2'⟩
  rcases List.mem_iff_getElem.mp hs1 with ⟨k1, hk1, hk1s⟩
  rcases List.mem_iff_getElem.mp hs2 with ⟨k2, hk2, hk2s⟩
  have hlen := hall.length_eq
  have hk1z : k1 < ((arraySplit (List.range nodes_count) areas).zip
      (arraySplit (List.range numClasses) areas)).length := by
    rw [← hlen]; exact hk1
  have hk2z : k2 < ((arraySplit (List.range nodes_count) areas).zip
      (arraySplit (List.range numClasses) areas)).length := by
    rw [← hlen]; exact hk2
  have hk1A : k1 < (arraySplit (List.range nodes_count) areas).length := by
    have := hk1z
    rw [List.length_zip] at this
    omega
  have hk1B : k1 < (arraySplit (List.range numClasses) areas).length := by
    have := hk1z
    rw [List.length_zip] at this
    omega
  have hk2B : k2 < (arraySplit (List.range numClasses) areas).length := by
    have := hk2z
    rw [List.length_zip] at this
    omega
  by_cases hk : k1 = k2
  · subst hk
    have hrel := forall₂_getElem hall k1 hk1 hk1z
    rw [List.getElem_zip] at hrel
    obtain ⟨recs, hperm, hfst, hok⟩ := hrel
    have he1'' : e1 ∈ segs[k1] := hk1s ▸ he1'
    have he2'' : e2 ∈ segs[k1] := hk2s ▸ he2'
    obtain ⟨hlab1, hcnt1, hsub1⟩ := hok e1 he1''
    obtain ⟨hlab2, hcnt2, hsub2⟩ := hok e2 he2''
    have hfst' : List.map Prod.fst segs[k1]
        = (arraySplit (List.range nodes_count) areas)[k1] := hfst
    have hn1 : e1.1 ∈ (arraySplit (List.range nodes_count) areas)[k1] := by
      rw [← hfst']
      exact List.mem_map_of_mem Prod.fst he1''
    have hn2 : e2.1 ∈ (arraySplit (List.range nodes_count) areas)[k1] := by
      rw [← hfst']
      exact List.mem_map_of_mem Prod.fst he2''
    have hnodes : nodes_count = areas * (nodes_count / areas) :=
      (Nat.mul_div_cancel' hdvd).symm
    have hsplit : arraySplit (List.range nodes_count) areas
        = takeChunks (List.replicate areas (nodes_count / areas))
          (List.range' 0 nodes_count) := by
      rw [arraySplit, List.length_range, splitSizes_dvd _ _ hdvd,
        List.range_eq_range']
    have hchunk : ∃ t, (arraySplit (List.range nodes_count) areas)[k1]
        = List.range' t (nodes_count / areas) := by
      apply chunk_of_replicate_range' (nodes_count / areas) areas 0 nodes_count
        hnodes
      rw [← hsplit]
      exact List.getElem_mem hk1A
    obtain ⟨t, ht⟩ := hchunk
    have hmodne : e1.1 % (nodes_count / areas) ≠ e2.1 % (nodes_count / areas) := by
      intro hmod
      exact hne (mod_inj_of_range' t (nodes_count / areas) e1.1 e2.1
        (ht ▸ hn1) (ht ▸ hn2) hmod)
    have hnd : recs.Nodup := (hperm.nodup_iff).mpr (recordsPerClass_nodup _ _)
    have hpair := takeChunks_pairwise_disjoint
      (splitSizes recs.length (nodes_count / areas)) recs hnd
    have hi1' := hsub1 i hi1
    have hi2' := hsub2 i hi2
    have hlenc : (arraySplit recs (nodes_count / areas)).length
        = nodes_count / areas := arraySplit_length _ _
    have hj1 : e1.1 % (nodes_count / areas)
        < (arraySplit recs (nodes_count / areas)).length := by
      rw [hlenc]
      exact Nat.mod_lt _ hnpa
    have hj2 : e2.1 % (nodes_count / areas)
        < (arraySplit recs (nodes_count / areas)).length := by
      rw [hlenc]
      exact Nat.mod_lt _ hnpa
    rw [List.getD_eq_getElem _ _ hj1] at hi1'
    rw [List.getD_eq_getElem _ _ hj2] at hi2'
    rcases lt_trichotomy (e1.1 % (nodes_count / areas))
        (e2.1 % (nodes_count / areas)) with hlt | heq | hgt
    · exact (List.pairwise_iff_getElem.mp hpair) _ _ hj1 hj2 hlt i hi1' hi2'
    · exact hmodne heq
    · exact (List.pairwise_iff_getElem.mp hpair) _ _ hj2 hj1 hgt i hi2' hi1'
  · have hrel1 := forall₂_getElem hall k1 hk1 hk1z
    rw [List.getElem_zip] at hrel1
    obtain ⟨recs1, hperm1, hfst1, hok1⟩ := hrel1
    have hrel2 := forall₂_getElem hall k2 hk2 hk2z
    rw [List.getElem_zip] at hrel2
    obtain ⟨recs2, hperm2, hfst2, hok2⟩ := hrel2
    obtain ⟨hlab1, hcnt1, hsub1⟩ := hok1 e1 (hk1s ▸ he1')
    obtain ⟨hlab2, hcnt2, hsub2⟩ := hok2 e2 (hk2s ▸ he2')
    have hirec1 : i ∈ recordsPerClass dsLabels
        ((arraySplit (List.range numClasses) areas)[k1]) :=
      hperm1.mem_iff.mp (mem_getD_arraySplit recs1 _ _ i (hsub1 i hi1))
    have hirec2 : i ∈ recordsPerClass dsLabels
        ((arraySplit (List.range numClasses) areas)[k2]) :=
      hperm2.mem_iff.mp (mem_getD_arraySplit recs2 _ _ i (hsub2 i hi2))
    rw [mem_recordsPerClass] at hirec1 hirec2
    have hpairB := takeChunks_pairwise_disjoint
      (splitSizes (List.range numClasses).length areas) (List.range numClasses)
      (List.nodup_range numClasses)
    rcases lt_trichotomy k1 k2 with hlt | heq | hgt
    · exact (List.pairwise_iff_getElem.mp hpairB) _ _ hk1B hk2B hlt
        (dsLabels.getD i 0) hirec1.2 hirec2.2
    · exact hk heq
    · exact (List.pairwise_iff_getElem.mp hpairB) _ _ hk2B hk1B hgt
        (dsLabels.getD i 0) hirec2.2 hirec1.2

/-- Witness for the amended C6 at a concrete input: 2 devices in 2 areas
(2 divides 2), shards `[0]` and `[1]` are disjoint. -/
theorem C6_disjoint_shards_of_dvd_witness :
    DisjointShards [(0, NodeData.mk [0] [0]), (1, NodeData.mk [1] [1])] :=
  C6_disjoint_shards_of_dvd (npSeed 3) [0, 1] 2 2 2 3 false (mkRat 1 1)
    [(0, NodeData.mk [0] [0]), (1, NodeData.mk [1] [1])] (by decide)
    (by decide)

/-- Splitting the empty record list produces only empty chunks (at any
position, including the out-of-range default). -/
theorem getD_arraySplit_nil (npa j : ℕ) :
    (arraySplit ([] : List ℕ) npa).getD j [] = [] := by
  by_cases hj : j < (arraySplit ([] : List ℕ) npa).length
  · rw [List.getD_eq_getElem _ _ hj]
    rw [List.eq_nil_iff_forall_not_mem]
    intro x hx
    exact absurd (takeChunks_subset _ _ _ (List.getElem_mem hj) x hx)
      (List.not_mem_nil x)
  · exact List.getD_eq_default _ _ (le_of_not_lt hj)

/-- When the first device's chunk is empty, `bound = int(0 * f) = 0` and
`np.random.choice(0, 0)` raises over the empty population, aborting the node
loop. -/
theorem processNodes_nil_chunk (npa : ℕ) (chunks : List (List ℕ))
    (classes : List ℕ) (f : ℚ) (node : ℕ) (rest : List ℕ)
    (mapping : List (ℕ × NodeData)) (g : RNG)
    (hc : chunks.getD (node % npa) [] = []) :
    processNodes npa chunks classes f (node :: rest) mapping g = none := by
  rw [processNodes, hc]
  simp only [List.length_nil]
  have h0 : pyIntMul 0 f = 0 := by
    unfold pyIntMul
    simp [Int.zero_tdiv]
  rw [h0]
  rfl

/-- The area loop aborts whenever some area's label block is empty while its
node block is not: that area's record list is empty, so its first device's
chunk is empty and `np.random.choice` raises (whether the abort happens at
this area or at an earlier one, no mapping is returned). -/
theorem processAreas_none_of_empty_classes (npa : ℕ) (dsLabels : List ℕ)
    (shuffling : Bool) (f : ℚ) (pairs : List (List ℕ × List ℕ))
    (mapping : List (ℕ × NodeData)) (g : RNG)
    (hbad : ∃ p ∈ pairs, p.2 = [] ∧ p.1 ≠ []) :
    processAreas npa dsLabels shuffling f pairs mapping g = none := by
  induction pairs generalizing mapping g with
  | nil =>
    obtain ⟨p, hp, -⟩ := hbad
    cases hp
  | cons pr rest ih =>
    obtain ⟨nodes, classes⟩ := pr
    rw [processAreas]
    by_cases h0 : npa = 0
    · rw [if_pos h0]
    · rw [if_neg h0]
      obtain ⟨p, hp, hpcls, hpnodes⟩ := hbad
      rcases List.mem_cons.mp hp with hph | hpt
      · have hcls : classes = [] := by rw [hph] at hpcls; exact hpcls
        have hnodes : nodes ≠ [] := by rw [hph] at hpnodes; exact hpnodes
        subst hcls
        have hrec : recordsPerClass dsLabels [] = [] := by
          unfold recordsPerClass
          simp
        rw [hrec]
        have hsh1 : (if shuffling then npShuffle g ([] : List ℕ)
            else (([] : List ℕ), g)).1 = [] := by
          by_cases hs : shuffling
          · simp [hs, npShuffle]
          · simp [hs]
        have hsh2 : (if shuffling then npShuffle g ([] : List ℕ)
            else (([] : List ℕ), g)).2 = g := by
          by_cases hs : shuffling
          · simp [hs, npShuffle]
          · simp [hs]
        rw [hsh1, hsh2]
        cases nodes with
        | nil => exact absurd rfl hnodes
        | cons n ns =>
          rw [processNodes_nil_chunk npa (arraySplit [] npa) [] f n ns mapping g
            (getD_arraySplit_nil npa (n % npa))]
      · cases hq : processNodes npa
            (arraySplit (if shuffling then npShuffle g (recordsPerClass dsLabels classes)
              else (recordsPerClass dsLabels classes, g)).1 npa)
            classes f nodes mapping
            (if shuffling then npShuffle g (recordsPerClass dsLabels classes)
              else (recordsPerClass dsLabels classes, g)).2 with
        | none => rfl
        | some q =>
          obtain ⟨m1, g1⟩ := q
          show processAreas npa dsLabels shuffling f rest m1 g1 = none
          apply ih
          exact ⟨p, hpt, hpcls, hpnodes⟩

/-- **C7** counterexample: with device_count = 3 and area_count = 2 the
configuration is incompatible (2 does not divide 3), yet the partitioner
returns a mapping instead of failing at partition-build time (devices 0 and 1
silently share area 0's single record — a degraded partition). -/
theorem C7_config_error_counterexample :
    ¬ (2 ∣ 3) ∧
    (dataset_to_nodes_partitioning (npSeed 0) [0, 1] 2 3 2 1 false
      (mkRat 1 1)).isSome = true := ⟨by decide, by decide⟩

/-- **C7** amended: the partitioner does fail at partition-build time when
`area_count` is zero (`int(nodes_count / areas)` divides by zero), when it
exceeds `device_count` (`nodes_per_area = 0`, so `np.array_split(records, 0)`
raises `ValueError`), and when it exceeds the label-class count (some area's
label block comes out empty, so that area's record list and hence its
devices' chunks are empty, and `np.random.choice` over the empty population
raises `ValueError`); but an `area_count` that merely fails to divide
`device_count` is not rejected — the call silently returns a degraded mapping
in which devices of the same area share chunks (see the counterexample). -/
theorem C7_config_error_amended (g0 : RNG) (dsLabels : List ℕ)
    (numClasses nodes_count areas seed : ℕ) (shuffling : Bool) (f : ℚ)
    (h : areas = 0 ∨ nodes_count < areas ∨ numClasses < areas) :
    dataset_to_nodes_partitioning g0 dsLabels numClasses nodes_count areas seed
      shuffling f = none := by
  unfold dataset_to_nodes_partitioning
  by_cases ha : areas = 0
  · rw [if_pos ha]
  · rw [if_neg ha]
    have hA : 0 < areas := Nat.pos_of_ne_zero ha
    by_cases hn : nodes_count < areas
    · have hnpa : nodes_count / areas = 0 := Nat.div_eq_of_lt hn
      have hpl : ((arraySplit (List.range nodes_count) areas).zip
          (arraySplit (List.range numClasses) areas)).length = areas := by
        rw [List.length_zip, arraySplit_length, arraySplit_length, min_self]
      cases hpz : (arraySplit (List.range nodes_count) areas).zip
          (arraySplit (List.range numClasses) areas) with
      | nil =>
        rw [hpz] at hpl
        simp at hpl
        omega
      | cons pr rest =>
        rw [hnpa]
        obtain ⟨nodes, classes⟩ := pr
        rw [processAreas, if_pos rfl]
        rfl
    · have hcls : numClasses < areas := by
        rcases h with h | h | h
        · exact absurd h ha
        · exact absurd h hn
        · exact h
      have hAn : areas ≤ nodes_count := le_of_not_lt hn
      have hk : areas - 1 < areas := by omega
      have hkA : areas - 1 < (arraySplit (List.range nodes_count) areas).length := by
        rw [arraySplit_length]; exact hk
      have hkB : areas - 1 < (arraySplit (List.range numClasses) areas).length := by
        rw [arraySplit_length]; exact hk
      have hkz : areas - 1 < ((arraySplit (List.range nodes_count) areas).zip
          (arraySplit (List.range numClasses) areas)).length := by
        rw [List.length_zip, arraySplit_length, arraySplit_length, min_self]
        exact hk
      have hBnil : (arraySplit (List.range numClasses) areas).getD (areas - 1) []
          = [] := by
        have hlen : ((arraySplit (List.range numClasses) areas).getD
            (areas - 1) []).length = 0 := by
          rw [getD_arraySplit_length _ _ _ hA, List.length_range]
          have hlt : areas - 1 < (splitSizes numClasses areas).length := by
            rw [splitSizes_length]; exact hk
          rw [List.getD_eq_getElem _ _ hlt]
          unfold splitSizes
          simp only [List.getElem_map, List.getElem_range]
          have hnotlt : ¬ (areas - 1 < numClasses) := by omega
          rw [Nat.mod_eq_of_lt hcls, if_neg hnotlt, Nat.div_eq_of_lt hcls]
        exact List.length_eq_zero.mp hlen
      have hAne : (arraySplit (List.range nodes_count) areas).getD (areas - 1) []
          ≠ [] := by
        have hpos : 0 < ((arraySplit (List.range nodes_count) areas).getD
            (areas - 1) []).length := by
          rw [getD_arraySplit_length _ _ _ hA, List.length_range]
          exact splitSizes_getD_pos nodes_count areas (areas - 1) hA hAn hk
        intro hcon
        rw [hcon] at hpos
        simp at hpos
      have hbad : ∃ p ∈ (arraySplit (List.range nodes_count) areas).zip
          (arraySplit (List.range numClasses) areas), p.2 = [] ∧ p.1 ≠ [] := by
        refine ⟨((arraySplit (List.range nodes_count) areas).getD (areas - 1) [],
          (arraySplit (List.range numClasses) areas).getD (areas - 1) []),
          ?_, hBnil, hAne⟩
        rw [List.mem_iff_getElem]
        refine ⟨areas - 1, hkz, ?_⟩
        rw [List.getElem_zip, List.getD_eq_getElem _ _ hkA,
          List.getD_eq_getElem _ _ hkB]
      rw [processAreas_none_of_empty_classes (nodes_count / areas) dsLabels
        shuffling f _ [] (npSeed seed) hbad]
      rfl

/-- Witness for the amended C7 at a concrete input: 2 devices, 3 areas. -/
theorem C7_config_error_amended_witness :
    dataset_to_nodes_partitioning (npSeed 0) [0, 1] 2 2 3 1 false (mkRat 1 1)
      = none :=
  C7_config_error_amended (npSeed 0) [0, 1] 2 2 3 1 false (mkRat 1 1)
    (Or.inr (Or.inl (by decide)))

/-! ### Evaluation (`evaluate`)

The model's forward pass is an external collaborator: it enters the embedding
as `scores : α → List ℚ` (the class-score list `model(images)` produces for an
input) and the `nn.NLLLoss` criterion as an abstract per-batch loss
`batchLoss`.  `DataLoader(data, batch_size, shuffle=False)` yields the data in
consecutive batches of `batch_size` (last batch possibly shorter, never
empty). -/

/-- The consecutive batches a non-shuffling `DataLoader` yields. -/
def batches {α : Type} (l : List α) (bs : ℕ) : List (List α) :=
  takeChunks (List.replicate ((l.length + bs - 1) / bs) bs) l

/-- `torch.max(outputs, 1)`: index of the first maximal class score. -/
def argmaxFirst (l : List ℚ) : ℕ := l.indexOf (l.foldl max (l.headD 0))

/-- `torch.sum(torch.eq(pred_labels, labels))` for one batch: the number of
examples whose arg-max predicted class equals the true label. -/
def countCorrect {α : Type} (scores : α → List ℚ) (b : List (α × ℕ)) : ℕ :=
  (b.filter (fun e => argmaxFirst (scores e.1) == e.2)).length

/-- `evaluate(model_w, data, batch_size)` from `main.py`: accumulate the
per-batch loss (`loss += batch_loss.item()`), the correct-prediction count and
the example count over fixed-order batches, then return
`(correct / total, loss)`.  `total = 0` raises `ZeroDivisionError`; PyTorch
rejects `batch_size = 0` when the loader is built. -/
def evaluate {α : Type} (scores : α → List ℚ) (batchLoss : List (α × ℕ) → ℚ)
    (data : List (α × ℕ)) (bs : ℕ) : Option (ℚ × ℚ) :=
  if bs = 0 then none
  else if ((batches data bs).foldl
      (fun (acc : ℚ × ℚ × ℚ) b =>
        (acc.1 + batchLoss b, acc.2.1 + (countCorrect scores b : ℚ),
         acc.2.2 + (b.length : ℚ))) (0, 0, 0)).2.2 = 0 then none
  else some
    (((batches data bs).foldl
      (fun (acc : ℚ × ℚ × ℚ) b =>
        (acc.1 + batchLoss b, acc.2.1 + (countCorrect scores b : ℚ),
         acc.2.2 + (b.length : ℚ))) (0, 0, 0)).2.1
     / ((batches data bs).foldl
      (fun (acc : ℚ × ℚ × ℚ) b =>
        (acc.1 + batchLoss b, acc.2.1 + (countCorrect scores b : ℚ),
         acc.2.2 + (b.length : ℚ))) (0, 0, 0)).2.2,
     ((batches data bs).foldl
      (fun (acc : ℚ × ℚ × ℚ) b =>
        (acc.1 + batchLoss b, acc.2.1 + (countCorrect scores b : ℚ),
         acc.2.2 + (b.length : ℚ))) (0, 0, 0)).1)

section EvalLemmas

theorem le_ceil_mul (n bs : ℕ) (hbs : 0 < bs) : n ≤ ((n + bs - 1) / bs) * bs := by
  rcases Nat.eq_zero_or_pos n with h | h
  · simp [h]
  · have hn1 : n + bs - 1 = (n - 1) + bs := by omega
    rw [hn1, Nat.add_div_right _ hbs]
    have hlt : n - 1 < ((n - 1) / bs + 1) * bs :=
      (Nat.div_lt_iff_lt_mul hbs).mp (Nat.lt_succ_self _)
    exact Nat.le_of_pred_lt hlt

theorem batches_flatten {α : Type} (l : List α) (bs : ℕ) (hbs : 0 < bs) :
    (batches l bs).flatten = l := by
  unfold batches
  rw [takeChunks_flatten, List.sum_replicate, smul_eq_mul]
  exact List.take_of_length_le (le_ceil_mul l.length bs hbs)

theorem countCorrect_append {α : Type} (scores : α → List ℚ)
    (b1 b2 : List (α × ℕ)) :
    countCorrect scores (b1 ++ b2) = countCorrect scores b1 + countCorrect scores b2 := by
  unfold countCorrect
  rw [List.filter_append, List.length_append]

theorem countCorrect_flatten {α : Type} (scores : α → List ℚ)
    (L : List (List (α × ℕ))) :
    (L.map (countCorrect scores)).sum = countCorrect scores L.flatten := by
  induction L with
  | nil => rfl
  | cons b bs ih =>
    rw [List.map_cons, List.sum_cons, List.flatten_cons, countCorrect_append, ih]

theorem eval_foldl {α : Type} (scores : α → List ℚ) (batchLoss : List (α × ℕ) → ℚ)
    (L : List (List (α × ℕ))) (a b c : ℚ) :
    L.foldl (fun (acc : ℚ × ℚ × ℚ) b' =>
        (acc.1 + batchLoss b', acc.2.1 + (countCorrect scores b' : ℚ),
         acc.2.2 + (b'.length : ℚ))) (a, b, c)
      = (a + (L.map batchLoss).sum,
         b + (L.map (fun b' => (countCorrect scores b' : ℚ))).sum,
         c + (L.map (fun b' => (b'.length : ℚ))).sum) := by
  induction L generalizing a b c with
  | nil => simp
  | cons x xs ih =>
    rw [List.foldl_cons, ih]
    simp only [List.map_cons, List.sum_cons, Prod.mk.injEq]
    refine ⟨by ring, by ring, by ring⟩

end EvalLemmas

/-- **C9**: for every non-empty evaluation split (and positive batch size),
`evaluate` returns accuracy equal to the number of examples whose arg-max
predicted class equals the true label divided by the total number of examples
— a value in `[0, 1]` — and returns as loss the SUM (not the mean) of the
per-batch losses. -/
theorem C9_evaluate_accuracy_and_loss {α : Type} (scores : α → List ℚ)
    (batchLoss : List (α × ℕ) → ℚ) (data : List (α × ℕ)) (bs : ℕ)
    (hd : data ≠ []) (hbs : 0 < bs) :
    ∃ a loss, evaluate scores batchLoss data bs = some (a, loss) ∧
      a = (countCorrect scores data : ℚ) / (data.length : ℚ) ∧
      0 ≤ a ∧ a ≤ 1 ∧
      loss = ((batches data bs).map batchLoss).sum := by
  have hflat : (batches data bs).flatten = data := batches_flatten data bs hbs
  have hcorr : ((batches data bs).map (fun b' => (countCorrect scores b' : ℚ))).sum
      = (countCorrect scores data : ℚ) := by
    have hcomp : (batches data bs).map (fun b' => (countCorrect scores b' : ℚ))
        = ((batches data bs).map (countCorrect scores)).map Nat.cast := by
      rw [List.map_map]
      rfl
    rw [hcomp, ← Nat.cast_list_sum, countCorrect_flatten, hflat]
  have hlen : ((batches data bs).map (fun b' => ((b' : List (α × ℕ)).length : ℚ))).sum
      = (data.length : ℚ) := by
    have hcomp : (batches data bs).map (fun b' => ((b' : List (α × ℕ)).length : ℚ))
        = ((batches data bs).map List.length).map Nat.cast := by
      rw [List.map_map]
      rfl
    rw [hcomp, ← Nat.cast_list_sum, ← List.length_flatten, hflat]
  have hdpos : 0 < data.length := List.length_pos.mpr hd
  have htotndeg : ((data.length : ℚ)) ≠ 0 := by
    exact_mod_cast Nat.pos_iff_ne_zero.mp hdpos
  unfold evaluate
  rw [if_neg (Nat.pos_iff_ne_zero.mp hbs), eval_foldl]
  simp only [zero_add]
  rw [hcorr, hlen, if_neg htotndeg]
  refine ⟨_, _, rfl, rfl, ?_, ?_, rfl⟩
  · positivity
  · rw [div_le_one (by exact_mod_cast hdpos)]
    exact_mod_cast List.length_filter_le _ data

/-- Witness for C9 at a concrete input: a 2-example split evaluated with batch
size 1 under a constant scorer. -/
theorem C9_evaluate_accuracy_and_loss_witness :
    ∃ a loss,
      evaluate (fun _ : ℕ => [(1 : ℚ), 0]) (fun _ => 1) [(0, 0), (1, 1)] 1
        = some (a, loss) ∧
      a = (countCorrect (fun _ : ℕ => [(1 : ℚ), 0]) [(0, 0), (1, 1)] : ℚ)
        / (([(0, 0), (1, 1)] : List (ℕ × ℕ)).length : ℚ) ∧
      0 ≤ a ∧ a ≤ 1 ∧
      loss = ((batches [(0, 0), (1, 1)] 1).map (fun _ => (1 : ℚ))).sum :=
  C9_evaluate_accuracy_and_loss (fun _ : ℕ => [(1 : ℚ), 0]) (fun _ => 1)
    [(0, 0), (1, 1)] 1 (by decide) (by decide)

/-! ### The round loop (`__main__` in `main.py`)

Local training and its optimizer are external collaborators (spec §1): a
round's behavior enters as an arbitrary function
`train : round → device → copied global weights → trained weights`.  Because
every theorem below quantifies over every such `train`, no property of the
trained weights can influence the control flow — aggregation results are
installed unconditionally. -/

/-- `copy.deepcopy(global_model)`: a value copy in the pure embedding. -/
def deepcopy (d : StateDict) : StateDict := d

/-- One `for i in range(devices)` round body: train every device in order
`0 .. devices-1` on a deep copy of the global weights, then aggregate with
`average_weights`. -/
def runRound (train : ℕ → StateDict → StateDict) (g : StateDict)
    (devices : ℕ) : Option StateDict :=
  average_weights ((List.range devices).map (fun i => train i (deepcopy g)))

/-- The `for round in range(global_rounds)` loop: each round's aggregated
weights unconditionally become the next round's global state
(`global_weights = average_weights(local_weights)` followed by
`global_model.load_state_dict(global_weights)`). -/
def runSimulation (train : ℕ → ℕ → StateDict → StateDict) (g0 : StateDict)
    (devices rounds : ℕ) : Option StateDict :=
  (List.range rounds).foldlM (fun g r => runRound (train r) g devices) g0

theorem average_weights_isSome (models : List StateDict) (h : models ≠ []) :
    ∃ w, average_weights models = some w := by
  cases models with
  | nil => exact absurd rfl h
  | cons m0 rest => exact ⟨_, rfl⟩

theorem runSimulation_succ (train : ℕ → ℕ → StateDict → StateDict)
    (g0 : StateDict) (devices r : ℕ) :
    runSimulation train g0 devices (r + 1)
      = (runSimulation train g0 devices r).bind
          (fun g => runRound (train r) g devices) := by
  unfold runSimulation
  rw [List.range_succ, List.foldlM_append]
  cases (List.range r).foldlM (fun g r => runRound (train r) g devices) g0 with
  | none => rfl
  | some w => simp [List.foldlM]

/-- **C8**: the round loop executes exactly `global_rounds` rounds — peeling
one round at a time from `runSimulation` by plain `Option.bind`; within each
round the devices are processed in the fixed order `0 .. devices-1` (the
round's local weights are the map of `train` over `List.range devices`, each
on a deep copy of the global state); and the round's aggregate is installed
unconditionally — the recurrence holds for EVERY `train` behavior, so no
validation can reject a round, and with at least one device every round
(hence the whole run) produces a global state: nothing is skipped or rolled
back. -/
theorem C8_round_loop (train : ℕ → ℕ → StateDict → StateDict) (g0 : StateDict)
    (devices rounds : ℕ) (hd : 0 < devices) :
    (∃ w, runSimulation train g0 devices rounds = some w) ∧
    runSimulation train g0 devices 0 = some g0 ∧
    (∀ r, runSimulation train g0 devices (r + 1)
        = (runSimulation train g0 devices r).bind (fun g =>
            average_weights ((List.range devices).map
              (fun i => train r i (deepcopy g))))) := by
  refine ⟨?_, rfl, fun r => runSimulation_succ train g0 devices r⟩
  induction rounds with
  | zero => exact ⟨g0, rfl⟩
  | succ r ih =>
    obtain ⟨w, hw⟩ := ih
    rw [runSimulation_succ, hw]
    obtain ⟨w', hw'⟩ := average_weights_isSome
      ((List.range devices).map (fun i => train r i (deepcopy w)))
      (by
        intro hc
        have := congrArg List.length hc
        simp at this
        omega)
    refine ⟨w', ?_⟩
    rw [Option.some_bind]
    exact hw'

/-- Witness for C8 at a concrete input: identity training over one device for
two rounds. -/
theorem C8_round_loop_witness :
    (∃ w, runSimulation (fun _ _ w => w) [] 1 2 = some w) ∧
    runSimulation (fun _ _ w => w) [] 1 0 = some [] ∧
    (∀ r, runSimulation (fun _ _ w => w) [] 1 (r + 1)
        = (runSimulation (fun _ _ w => w) [] 1 r).bind (fun g =>
            average_weights ((List.range 1).map
              (fun _ => deepcopy g)))) :=
  C8_round_loop (fun _ _ w => w) [] 1 2 (by decide)

end FLNonIID
